import Mathlib

/-!
Verification development for the spreadsheet-extraction pipeline
`02_Local_Debt_Analysis/debt_cleaning_pipeline.py`.

The Python program is shallowly embedded below.  Cell values (numbers, text,
null) are a closed variant `CellValue`; a worksheet is a rectangular grid of
`Cell`s (value plus four border-edge flags) together with a list of merged
ranges and an explicit column bound (`openpyxl`'s `max_column`).  The helper
functions of the source (`clean_cell`, `clean_for_matching`, `has_border`,
`manual_ffill`, `find_border_range_in_sheet`, `are_tables_similar`,
`get_logical_starts_for_row`, `get_absolute_col_from_logical_index_for_row`,
`build_anchor_map`, `extract_vars_from_anchor`, the base-row special-column
scan of `extract_data_with_extended_vars`, and the orchestration loop of
`main`) are translated function by function.  `while` loops whose counter
strictly increases and is bounded are rendered either by well-founded
recursion on the remaining distance or by a structurally decreasing fuel
argument initialised to that distance; in the latter case the fuel provably
never runs out before the loop guard fails, so the rendering computes the
same list the loop does.
-/

set_option maxHeartbeats 1000000
set_option maxRecDepth 4000

namespace DebtPipeline

/-- Closed variant of the dynamic cell values the source manipulates:
Python `None`/`NaN`, a text value, or a numeric value. -/
inductive CellValue where
  | vnone : CellValue
  | vstr : String → CellValue
  | vint : Int → CellValue
deriving DecidableEq, Repr

/-- The textual representation `str(v)` used by the source before cleaning;
`None` is filtered out before `str` is ever applied. -/
def cell_value_str : CellValue → String
  | .vnone => ""
  | .vstr s => s
  | .vint n => toString n

/-- Python truthiness of a cell value (`if cell.value and ...`):
`None`, the empty string and the number `0` are falsy. -/
def cell_truthy : CellValue → Bool
  | .vnone => false
  | .vstr s => s != ""
  | .vint n => n != 0

/-- One spreadsheet cell: a value and the four border-edge flags
(`cell.border.left.style` is non-empty, etc.). -/
structure Cell where
  value : CellValue := .vnone
  borderLeft : Bool := false
  borderRight : Bool := false
  borderTop : Bool := false
  borderBottom : Bool := false
deriving DecidableEq, Repr

instance : Inhabited Cell := ⟨{}⟩

/-- A merged-cell range, 1-indexed inclusive bounds, as in `openpyxl`. -/
structure MergedRange where
  min_row : Nat
  max_row : Nat
  min_col : Nat
  max_col : Nat
deriving DecidableEq, Repr

/-- A worksheet: row-major grid of cells, merged ranges, and the explicit
column bound `max_column`.  Rows and columns are addressed 1-indexed, as in
`openpyxl`; out-of-range addresses yield an empty, unbordered cell, which is
what `sheet.cell(row, col)` materialises. -/
structure Sheet where
  maxCol : Nat
  rows : List (List Cell)
  merges : List MergedRange

instance : Inhabited Sheet := ⟨{ maxCol := 0, rows := [], merges := [] }⟩

/-- `sheet.max_row`. -/
def Sheet.maxRow (s : Sheet) : Nat := s.rows.length

/-- `sheet.cell(row=r, column=c)` for 1-indexed `r`, `c`. -/
def Sheet.cell (s : Sheet) (r c : Nat) : Cell :=
  (((s.rows[r - 1]?).getD []).getD (c - 1) default)

/-- `clean_cell`: strip all whitespace from the textual representation;
empty for null. -/
def clean_cell (v : CellValue) : String :=
  match v with
  | .vnone => ""
  | _ => String.mk ((cell_value_str v).data.filter (fun c => !c.isWhitespace))

/-- Membership in the CJK range `[一-龥]` used by
`clean_for_matching`. -/
def is_cjk (c : Char) : Bool := decide (0x4e00 ≤ c.toNat) && decide (c.toNat ≤ 0x9fa5)

/-- `clean_for_matching`: keep only CJK script characters; empty for null. -/
def clean_for_matching (v : CellValue) : String :=
  match v with
  | .vnone => ""
  | _ => String.mk ((cell_value_str v).data.filter is_cjk)

/-- `has_border`: the cell carries a style on at least one of its four
border edges. -/
def has_border (c : Cell) : Bool :=
  c.borderLeft || c.borderRight || c.borderTop || c.borderBottom

/- Configuration constants of the source, kept verbatim. -/

def HEADERS_TO_FIND : List String := ["项目名称", "项目单位", "主管部门"]

def DATA_COL_NAMES : List String := ["总值", "财政安排", "债券融资"]

def SPECIAL_COL_NAME : String := "预期总收益"

def EXTENDED_VAR_NAMES : List String :=
  ["项目类型", "专项债券中用于该项目的金额", "其中：用于符合条件的重大项目资本金的金额",
   "简要描述", "建设期", "运营期", "债券存续期内项目总投资",
   "其中：不含专项债券的项目资本金", "专项债券融资", "其他债务融资"]

def ADDITIONAL_VAR_NAME : String := "债券存续期内项目总收益"

def COLS_TO_FIND_BY_HEADER_KEYS : List String := ["债券名称", "发行规模"]

def METADATA_KEYS : List String := ["年份", "地区", "数据来源"]

def FINAL_COLUMN_ORDER : List String :=
  COLS_TO_FIND_BY_HEADER_KEYS ++ HEADERS_TO_FIND ++ DATA_COL_NAMES ++
    [SPECIAL_COL_NAME] ++ EXTENDED_VAR_NAMES ++ [ADDITIONAL_VAR_NAME] ++ METADATA_KEYS

/-- Non-blankness test used inside `manual_ffill`:
`filled_data[r][c] is not None and clean_cell(filled_data[r][c]) != ''`
(a null value cleans to the empty string, so one test suffices). -/
def non_blank (v : CellValue) : Bool := clean_cell v != ""

/-- The per-column downward pass of `manual_ffill`.  `lastVal` is the
running `last_val` variable: a non-blank cell updates it, a blank cell is
overwritten by it when it is set and left unchanged otherwise.  The
imperative loop reads each cell before any write to it, so it consumes the
original column values exactly as this pass does. -/
def ffill_column : Option CellValue → List CellValue → List CellValue
  | _, [] => []
  | lastVal, v :: rest =>
    if non_blank v then v :: ffill_column (some v) rest
    else
      match lastVal with
      | some lv => lv :: ffill_column (some lv) rest
      | none => v :: ffill_column none rest

/-- Pad a row with `None` up to the common column count, as the
`while len(row) < num_cols: row.append(None)` loop does. -/
def pad_row (n : Nat) (row : List CellValue) : List CellValue :=
  row ++ List.replicate (n - row.length) CellValue.vnone

/-- `num_cols = max(len(row) for row in filled_data)` (0 for no rows). -/
def grid_num_cols (data : List (List CellValue)) : Nat :=
  (data.map List.length).foldl Nat.max 0

/-- Column `c` (0-indexed) of a padded grid. -/
def column_of (data : List (List CellValue)) (c : Nat) : List CellValue :=
  data.map (fun row => (row[c]?).getD CellValue.vnone)

/-- `manual_ffill`: pad the rows to a common width, then run the downward
fill independently on every column.  The source's in-place double loop
writes cell `(r, c)` only after reading it and touches no other column, so
its result grid is exactly this column-by-column reassembly. -/
def manual_ffill (data : List (List CellValue)) : List (List CellValue) :=
  match data with
  | [] => []
  | _ :: _ =>
    let n := grid_num_cols data
    let padded := data.map (pad_row n)
    (List.range padded.length).map (fun r =>
      (List.range n).map (fun c =>
        ((ffill_column none (column_of padded c))[r]?).getD CellValue.vnone))

/-- An `A1:D10`-style rectangle, already parsed into its 1-indexed
inclusive bounds (`range_boundaries` output order: min_col, min_row,
max_col, max_row). -/
structure Rect where
  min_col : Nat
  min_row : Nat
  max_col : Nat
  max_row : Nat
deriving DecidableEq, Repr

/-- `find_border_range_in_sheet`: the tightest rectangle enclosing every
bordered cell of the sheet, or `none` if no cell has a border.  The source
folds `min`/`max` over all bordered cells found by a row-major scan. -/
def find_border_range_in_sheet (s : Sheet) : Option Rect :=
  let coords := (List.range s.maxRow).flatMap (fun ri =>
    (List.range s.maxCol).filterMap (fun ci =>
      if has_border (s.cell (ri + 1) (ci + 1)) then some (ri + 1, ci + 1) else none))
  match coords with
  | [] => none
  | (r, c) :: rest =>
    some (rest.foldl (fun acc p =>
      { min_row := Nat.min acc.min_row p.1, max_row := Nat.max acc.max_row p.1,
        min_col := Nat.min acc.min_col p.2, max_col := Nat.max acc.max_col p.2 })
      { min_row := r, max_row := r, min_col := c, max_col := c })

/-- `are_tables_similar`: the two ranges span the same number of
columns. -/
def are_tables_similar (r1 r2 : Rect) : Bool :=
  (r1.max_col - r1.min_col + 1) == (r2.max_col - r2.min_col + 1)

/-- Number of rows a border region spans (`max_row - min_row + 1`). -/
def rect_height (r : Rect) : Nat := r.max_row - r.min_row + 1

/-- Title matching of one sheet inside `consolidate_tables_from_group`:
some cell of the first `scanRowLimit` rows (all rows when the limit is 0)
is truthy and its whitespace-stripped text matches the compiled title
pattern.  The regular-expression search is abstracted into the predicate
`mp` on the cleaned text. -/
def sheet_matches_title (mp : String → Bool) (scanRowLimit : Nat) (s : Sheet) : Bool :=
  (List.range (if 0 < scanRowLimit then scanRowLimit else s.maxRow)).any (fun ri =>
    (List.range s.maxCol).any (fun ci =>
      cell_truthy (s.cell (ri + 1) (ci + 1)).value &&
        mp (clean_cell (s.cell (ri + 1) (ci + 1)).value)))

/-- Indices (in original order) of the sheets whose leading rows match the
title pattern — the source's `matched_sheets_info`. -/
def matched_sheet_indices (mp : String → Bool) (scanRowLimit : Nat)
    (sheets : List Sheet) : List Nat :=
  (List.range sheets.length).filter
    (fun i => sheet_matches_title mp scanRowLimit ((sheets[i]?).getD default))

/-- The `for info in matched_sheets_info` loop: border-less matched sheets
are passed over (`if not border_range: continue`) and the first matched
sheet that does have a border region starts the table (the body ends in
`break`). -/
def first_table_start (sheets : List Sheet) : List Nat → Option (Nat × Rect)
  | [] => none
  | i :: rest =>
    match find_border_range_in_sheet ((sheets[i]?).getD default) with
    | some r => some (i, r)
    | none => first_table_start sheets rest

/-- The continuation `while` loop, rendered with fuel
`sheets.length - nextIdx`; the loop advances `next_sheet_index` by exactly
one per iteration, so this fuel is exactly the number of remaining
iterations and never runs out before the guard fails. -/
def continuation_walk_go (sheets : List Sheet) : Nat → Rect → Nat → List (Nat × Rect)
  | 0, _, _ => []
  | fuel + 1, cur, nextIdx =>
    if nextIdx < sheets.length then
      match find_border_range_in_sheet ((sheets[nextIdx]?).getD default) with
      | some nr =>
        if are_tables_similar cur nr then
          (nextIdx, nr) :: continuation_walk_go sheets fuel nr (nextIdx + 1)
        else []
      | none => []
    else []

/-- Continuation walk from sheet `nextIdx`, given the current region
`cur`: append the next sheet while it has a border region of the same
column count, re-basing the comparison on each appended region. -/
def continuation_walk (sheets : List Sheet) (cur : Rect) (nextIdx : Nat) : List (Nat × Rect) :=
  continuation_walk_go sheets (sheets.length - nextIdx) cur nextIdx

/-- Table selection of `consolidate_tables_from_group` (steps 1–2): find
the title-matching sheets, start at the first of them that has a border
region, walk the continuations, and return the chosen `(index, region)`
list together with `last_sheet_index`; `none` models the `NoTableFound`
failure (`return None, [], -1`). -/
def consolidate_select (mp : String → Bool) (scanRowLimit : Nat)
    (sheets : List Sheet) : Option (List (Nat × Rect) × Nat) :=
  match first_table_start sheets (matched_sheet_indices mp scanRowLimit sheets) with
  | none => none
  | some (i, r) =>
    let cont := continuation_walk sheets r (i + 1)
    some ((i, r) :: cont, ((cont.getLast?).getD (i, r)).1)

/-- The rows of one border region, in row order, as `copy_range` reads
them (cells `(min_row..max_row) × (min_col..max_col)`). -/
def region_rows (s : Sheet) (r : Rect) : List (List Cell) :=
  (List.range (rect_height r)).map (fun ri =>
    (List.range (r.max_col - r.min_col + 1)).map (fun ci =>
      s.cell (r.min_row + ri) (r.min_col + ci)))

/-- The write loop of `consolidate_tables_from_group` (step 3): regions
are copied one after another starting at `next_row_to_write`, which
advances by exactly the height of each region — a gap-free vertical
stack preserving row order. -/
def consolidated_rows (sheets : List Sheet) : List (Nat × Rect) → List (List Cell)
  | [] => []
  | t :: rest =>
    region_rows ((sheets[t.1]?).getD default) t.2 ++ consolidated_rows sheets rest

/-- The merge-membership test of `get_logical_starts_for_row`: the merged
range covers row `rowNum` and contains column `col`. -/
def merge_covers (m : MergedRange) (rowNum col : Nat) : Bool :=
  decide (m.min_row ≤ rowNum) && decide (rowNum ≤ m.max_row) &&
    decide (m.min_col ≤ col) && decide (col ≤ m.max_col)

/-- The `while col <= sheet.max_column` loop of
`get_logical_starts_for_row`, rendered with a fuel argument: every
iteration appends `col` and then advances it by at least one (to
`merged_range.max_col + 1` when the first merged range containing the
current position is found — the inner `for ... break` is `List.find?` —
and to `col + 1` otherwise), so starting fuel `maxCol + 1` at `col = 1`
maintains `maxCol + 2 - col ≤ fuel + 1` and the fuel never runs out
before the guard `col ≤ maxCol` fails. -/
def get_logical_starts_go (maxCol : Nat) (merges : List MergedRange) (rowNum : Nat) :
    Nat → Nat → List Nat
  | 0, _ => []
  | fuel + 1, col =>
    if col ≤ maxCol then
      match merges.find? (fun m => merge_covers m rowNum col) with
      | some m => col :: get_logical_starts_go maxCol merges rowNum fuel (m.max_col + 1)
      | none => col :: get_logical_starts_go maxCol merges rowNum fuel (col + 1)
    else []

/-- `get_logical_starts_for_row` (the per-sheet cache is transparent to
the computed value and is dropped). -/
def get_logical_starts_for_row (s : Sheet) (rowNum : Nat) : List Nat :=
  get_logical_starts_go s.maxCol s.merges rowNum (s.maxCol + 1) 1

/-- `get_absolute_col_from_logical_index_for_row`: the `logicalIndex`-th
(1-based) entry of the row's logical starts, or `none` when the index is
out of range. -/
def get_absolute_col_from_logical_index_for_row (s : Sheet) (rowNum logicalIndex : Nat) :
    Option Nat :=
  let ls := get_logical_starts_for_row s rowNum
  if 1 ≤ logicalIndex ∧ logicalIndex ≤ ls.length then ls[logicalIndex - 1]? else none

/-- An anchor location `(sheet index, row, value logical index)` as stored
by `build_anchor_map` (the stored logical index is the literal `2`). -/
structure AnchorLoc where
  sheetIdx : Nat
  row : Nat
  vli : Nat
deriving DecidableEq, Repr

/-- The per-sheet row scan of `build_anchor_map`: for every row whose
logical columns 1 and 2 both exist, if the key cell's script-only text is
the entity-name label and the value cell's script-only text is non-empty,
record `(name, (absIdx, row, 2))`. -/
def sheet_anchor_rows (s : Sheet) (absIdx : Nat) : List (String × AnchorLoc) :=
  (List.range s.maxRow).filterMap (fun ri =>
    let r := ri + 1
    match get_absolute_col_from_logical_index_for_row s r 1,
        get_absolute_col_from_logical_index_for_row s r 2 with
    | some kc, some vc =>
      if clean_for_matching (s.cell r kc).value = "项目名称" then
        let pname := clean_for_matching (s.cell r vc).value
        if pname ≠ "" then some (pname, ⟨absIdx, r, 2⟩) else none
      else none
    | _, _ => none)

/-- All anchors found by `build_anchor_map`, in scan order (rows ascending
within a sheet, sheets ascending from `startIdx`). -/
def anchor_scan (sheets : List Sheet) (startIdx : Nat) : List (String × AnchorLoc) :=
  ((List.range (sheets.length - startIdx)).map (fun off =>
    sheet_anchor_rows ((sheets[startIdx + off]?).getD default) (startIdx + off))).foldr
    (· ++ ·) []

/-- `build_anchor_map` as a lookup: the anchor dictionary's list for
`name` is exactly the scan-order sublist of anchors bearing that
normalized name (`setdefault(...).append` appends in scan order). -/
def build_anchor_map (sheets : List Sheet) (startIdx : Nat) (name : String) :
    List AnchorLoc :=
  ((anchor_scan sheets startIdx).filter (fun p => p.1 == name)).map (fun p => p.2)

/-- The inner `while not found and current_s_idx < len(original_sheets)`
walk of `extract_vars_from_anchor`: advance row by row (rolling over to
the next sheet with `current_r = 1` when the sheet's rows are exhausted)
until the cell at the row's logical column `vli` exists and has a border;
return that cell's value and the cursor just past it, or `none` with the
final cursor when the sheet sequence is exhausted. -/
def find_next_bordered (sheets : List Sheet) (vli : Nat) (sIdx r : Nat) :
    Option CellValue × Nat × Nat :=
  if _h : sIdx < sheets.length then
    if ((sheets[sIdx]?).getD default).maxRow < r then
      find_next_bordered sheets vli (sIdx + 1) 1
    else
      match get_absolute_col_from_logical_index_for_row ((sheets[sIdx]?).getD default) r vli with
      | none => find_next_bordered sheets vli sIdx (r + 1)
      | some c =>
        if has_border (((sheets[sIdx]?).getD default).cell r c) then
          (some (((sheets[sIdx]?).getD default).cell r c).value, sIdx, r + 1)
        else find_next_bordered sheets vli sIdx (r + 1)
  else (none, sIdx, r)
termination_by (sheets.length - sIdx, ((sheets[sIdx]?).getD default).maxRow + 1 - r)
decreasing_by
  all_goals first
  | exact Prod.Lex.left _ _ (by omega)
  | exact Prod.Lex.right _ (by omega)

/-- The `for var_name in EXTENDED_VAR_NAMES` loop: pair each field name
with the next bordered value (or `None` on exhaustion), threading the
cursor; returns the pairs and the final cursor, from which the
additional-variable scan continues. -/
def extract_vars_loop (sheets : List Sheet) (vli : Nat) :
    List String → Nat → Nat → List (String × CellValue) × Nat × Nat
  | [], sIdx, r => ([], sIdx, r)
  | v :: vs, sIdx, r =>
    let res := find_next_bordered sheets vli sIdx r
    let rest := extract_vars_loop sheets vli vs res.2.1 res.2.2
    ((v, res.1.getD CellValue.vnone) :: rest.1, rest.2)

/-- The bounded `for _ in range(search_limit)` scan for the additional
variable: at most `fuel` iterations (sheet-rollover iterations also
consume fuel, as `continue` does); a row whose logical key cell cleans to
the additional label and whose logical value cell has a border yields
that value. -/
def find_additional_go (sheets : List Sheet) : Nat → Nat → Nat → Option CellValue
  | 0, _, _ => none
  | fuel + 1, sIdx, r =>
    if sIdx < sheets.length then
      let sheet := (sheets[sIdx]?).getD default
      if sheet.maxRow < r then find_additional_go sheets fuel (sIdx + 1) 1
      else
        match get_absolute_col_from_logical_index_for_row sheet r 1,
            get_absolute_col_from_logical_index_for_row sheet r 2 with
        | some kc, some vc =>
          if clean_cell (sheet.cell r kc).value = ADDITIONAL_VAR_NAME ∧
              has_border (sheet.cell r vc) then
            some (sheet.cell r vc).value
          else find_additional_go sheets fuel sIdx (r + 1)
        | _, _ => find_additional_go sheets fuel sIdx (r + 1)
    else none

/-- `extract_vars_from_anchor`: a falsy anchor yields all extended fields
absent; otherwise walk from one row below the anchor through the ordered
field list, then run the bounded scan for the additional variable
(`search_limit = 10`) from the final cursor.  Dictionary insertion order
is the extended fields followed by the additional field. -/
def extract_vars_from_anchor (anchor : Option AnchorLoc) (sheets : List Sheet) :
    List (String × CellValue) :=
  match anchor with
  | none => EXTENDED_VAR_NAMES.map (fun k => (k, CellValue.vnone))
  | some a =>
    let res := extract_vars_loop sheets a.vli EXTENDED_VAR_NAMES a.sheetIdx (a.row + 1)
    res.1 ++ [(ADDITIONAL_VAR_NAME, (find_additional_go sheets 10 res.2.1 res.2.2).getD CellValue.vnone)]

/-- A record is a Python dict in insertion order: an association list
from column names to cell values. -/
abbrev Record : Type := List (String × CellValue)

/-- `record.get(key)` with default `None`. -/
def record_get (rec : Record) (key : String) : CellValue :=
  match rec.find? (fun p => p.1 == key) with
  | some p => p.2
  | none => CellValue.vnone

/-- `record[key] = v`: overwrite an existing binding in place, or append a
new one, as Python dict assignment does. -/
def dict_set (rec : Record) (key : String) (v : CellValue) : Record :=
  if rec.any (fun p => p.1 == key) then
    rec.map (fun p => if p.1 == key then (p.1, v) else p)
  else rec ++ [(key, v)]

/-- `record.update(kvs)`: assign every pair in order. -/
def dict_update (rec : Record) (kvs : List (String × CellValue)) : Record :=
  kvs.foldl (fun r p => dict_set r p.1 p.2) rec

/-- The occurrence-numbering loop of `extract_data_with_extended_vars`
(`name_counts`): walk the base records in consolidated-table row order and
give the `k`-th record whose script-normalized project name equals a given
non-empty name the occurrence index `k`; records with an empty normalized
name get none (no `_occurrence_index` key, read back as `-1`). -/
def assign_occ (counts : String → Nat) : List Record → List (Record × Option Nat)
  | [] => []
  | r :: rest =>
    let cn := clean_for_matching (record_get r ("项目名称"))
    if cn = "" then (r, none) :: assign_occ counts rest
    else
      let k := counts cn + 1
      (r, some k) :: assign_occ (fun s => if s = cn then k else counts s) rest

/-- The all-absent extended-variable dictionary built in the mismatch
branch: every extended field and the additional field set to `None`. -/
def absent_extended_vars : List (String × CellValue) :=
  EXTENDED_VAR_NAMES.map (fun k => (k, CellValue.vnone)) ++
    [(ADDITIONAL_VAR_NAME, CellValue.vnone)]

/-- Enrichment of one base record: look up the anchor list for the
record's normalized project name; when the occurrence index `k` satisfies
`1 ≤ k ≤ len(anchors)` extract from the `k`-th anchor, otherwise attach
the all-absent dictionary; finally merge in the run metadata. -/
def enrich_one (amap : String → List AnchorLoc) (sheets : List Sheet)
    (metadata : List (String × CellValue)) (p : Record × Option Nat) : Record :=
  let cn := clean_for_matching (record_get p.1 ("项目名称"))
  let locs := amap cn
  let ext :=
    match p.2 with
    | some k =>
      if 1 ≤ k ∧ k ≤ locs.length then extract_vars_from_anchor locs[k - 1]? sheets
      else absent_extended_vars
    | none => absent_extended_vars
  dict_update (dict_update p.1 ext) metadata

/-- The anchor-enrichment phase of `extract_data_with_extended_vars`:
number the base records by occurrence, build the anchor map over the
sheets after the last consolidated one, and enrich each record in row
order. -/
def enrich_records (sheets : List Sheet) (lastSheetIdx : Nat)
    (metadata : List (String × CellValue)) (base : List Record) : List Record :=
  (assign_occ (fun _ => 0) base).map
    (enrich_one (build_anchor_map sheets (lastSheetIdx + 1)) sheets metadata)

/-- The right-to-left scan for the special column
(`for c_idx in range(sheet.max_column, 0, -1)`): the first cell that has
a border *and* a non-`None` value supplies the value; `None` if the scan
reaches column 0. -/
def scan_special (s : Sheet) (rowNum : Nat) : Nat → CellValue
  | 0 => CellValue.vnone
  | c + 1 =>
    if has_border (s.cell rowNum (c + 1)) ∧ (s.cell rowNum (c + 1)).value ≠ CellValue.vnone then
      (s.cell rowNum (c + 1)).value
    else scan_special s rowNum c

/-- The special field (`预期总收益`) of a base data row. -/
def special_col_value (s : Sheet) (rowNum : Nat) : CellValue :=
  scan_special s rowNum s.maxCol

/-- Spec-side comparison definition for the special column, following the
claim's words only: scanning right to left, the first cell that has a
border determines the value (no non-emptiness requirement).  Used solely
to exhibit where the claim and the code part ways. -/
def scan_special_claimed (s : Sheet) (rowNum : Nat) : Nat → CellValue
  | 0 => CellValue.vnone
  | c + 1 =>
    if has_border (s.cell rowNum (c + 1)) then (s.cell rowNum (c + 1)).value
    else scan_special_claimed s rowNum c

/-- Spec-side special-field value (see `scan_special_claimed`). -/
def special_col_value_claimed (s : Sheet) (rowNum : Nat) : CellValue :=
  scan_special_claimed s rowNum s.maxCol

/-- The final-schema projection of `main`: after `enriched` records are
framed, every column of `FINAL_COLUMN_ORDER` missing from a record is
filled with `None` and the frame is reindexed to exactly
`FINAL_COLUMN_ORDER`, dropping nothing else and adding nothing else. -/
def finalize_record (rec : Record) : List (String × CellValue) :=
  FINAL_COLUMN_ORDER.map (fun col => (col, record_get rec col))

/-- A file group as the orchestrator sees it: its durable identifier
(`file_group[0]`).  The group's spreadsheet content is abstracted into the
`processGroup` function below, which is a pure function of the unchanged
input directory. -/
structure FileGroup where
  identifier : String
deriving DecidableEq, Repr

/-- The two co-written durable tables: the appended records and the
processing log (a membership set read back at startup). -/
structure PipelineState (α : Type) where
  dataRows : List α
  log : List String
deriving DecidableEq, Repr

/-- One iteration of the `for i, file_group in enumerate(...)` loop of
`main`: skip the group when its identifier is in the log loaded at
startup; otherwise run consolidation and extraction (`processGroup`,
deterministic in the group's unchanged files; the empty list covers both
consolidation failure and zero extracted records) and, only when records
were produced, append data and log identifier together. -/
def run_group {α : Type} (processGroup : FileGroup → List α) (initialLog : List String)
    (st : PipelineState α) (g : FileGroup) : PipelineState α :=
  if g.identifier ∈ initialLog then st
  else
    match processGroup g with
    | [] => st
    | recs => { dataRows := st.dataRows ++ recs, log := st.log ++ [g.identifier] }

/-- One whole pipeline run over the discovered groups, starting from the
durable state `st` (whose log is the membership set loaded by
`load_processed_log_from_excel`). -/
def run_pipeline {α : Type} (processGroup : FileGroup → List α) (groups : List FileGroup)
    (st : PipelineState α) : PipelineState α :=
  groups.foldl (run_group processGroup st.log) st

/- Concrete instances used by counterexamples and witnesses. -/

/-- A title matcher recognising exactly the cleaned text `T`. -/
def demo_mp : String → Bool := fun s => s == "T"

/-- Sheet whose leading rows match the title but which has no bordered
cell. -/
def demo_c2_s0 : Sheet :=
  { maxCol := 1, rows := [[{ value := CellValue.vstr ("T") }]], merges := [] }

/-- Sheet whose leading rows match the title and which has one bordered
cell. -/
def demo_c2_s1 : Sheet :=
  { maxCol := 1,
    rows := [[{ value := CellValue.vstr ("T"), borderTop := true }]],
    merges := [] }

/-- A group whose first title-matching sheet is border-less while the
second title-matching sheet holds the table. -/
def demo_c2_sheets : List Sheet := [demo_c2_s0, demo_c2_s1]

/-- A sheet bordered exactly on `B2:F10` (columns 2–6, rows 2–10), its
title cell `T` in row 1. -/
def demo_c3_sheet : Sheet :=
  { maxCol := 6,
    rows := (List.range 10).map (fun ri =>
      (List.range 6).map (fun ci =>
        if ri = 0 ∧ ci = 0 then { value := CellValue.vstr ("T") }
        else if 1 ≤ ri ∧ 1 ≤ ci then { borderTop := true }
        else {})),
    merges := [] }

/-- Two pages, each with a `B2:F10` bordered region. -/
def demo_c3_sheets : List Sheet := [demo_c3_sheet, demo_c3_sheet]

/-- The bounding rectangle `B2:F10`. -/
def demo_c3_rect : Rect := { min_col := 2, min_row := 2, max_col := 6, max_row := 10 }

/-- A single discovered group whose processing yields no records. -/
def demo_c5_group : FileGroup := { identifier := "G" }

/-- A group-processing function that always fails to produce records. -/
def demo_c5_fail : FileGroup → List Nat := fun _ => []

/-- A group-processing function that always produces one record. -/
def demo_c5_ok : FileGroup → List Nat := fun _ => [1]

/-- A sheet four columns wide with a single merge spanning columns 2–3 of
row 1. -/
def demo_c6_sheet : Sheet :=
  { maxCol := 4, rows := [],
    merges := [{ min_row := 1, max_row := 1, min_col := 2, max_col := 3 }] }

/-- A two-row, one-column grid: a text cell above a blank cell. -/
def demo_c7_grid : List (List CellValue) :=
  [[CellValue.vstr ("a")], [CellValue.vnone]]

/-- The only column of the padded demo grid. -/
def demo_c7_col : List CellValue :=
  column_of (demo_c7_grid.map (pad_row (grid_num_cols demo_c7_grid))) 0

/-- A row whose rightmost bordered cell (column 2) is empty while the
bordered cell at column 1 holds `5`. -/
def demo_c8_sheet : Sheet :=
  { maxCol := 2,
    rows := [[{ value := CellValue.vint 5, borderTop := true },
              { value := CellValue.vnone, borderTop := true }]],
    merges := [] }

/-- A two-column sheet with no merges, for the layout-invariant
witness. -/
def demo_c10_sheet : Sheet := { maxCol := 2, rows := [], merges := [] }

/-- A single base record named `甲`, for the occurrence-pairing
witness. -/
def demo_c1_base : List Record := [[("项目名称", CellValue.vstr ("甲"))]]

/-- The one-cell border region `A1:A1` of `demo_c2_s1`. -/
def demo_c2_rect : Rect := { min_col := 1, min_row := 1, max_col := 1, max_row := 1 }

/-- Column `c` lies strictly inside (after the starting column of) a
merged range that covers `rowNum` — exactly the columns the logical scan
jumps over. -/
def strictly_inside_merge (s : Sheet) (rowNum c : Nat) : Bool :=
  s.merges.any (fun m => decide (m.min_row ≤ rowNum) && decide (rowNum ≤ m.max_row) &&
    decide (m.min_col < c) && decide (c ≤ m.max_col))

/-- The merged ranges covering `rowNum` are pairwise column-disjoint
unless they share the same column span — the invariant real spreadsheets
satisfy (merged ranges never overlap). -/
def merges_disjoint_at (merges : List MergedRange) (rowNum : Nat) : Prop :=
  ∀ m ∈ merges, ∀ m2 ∈ merges,
    m.min_row ≤ rowNum → rowNum ≤ m.max_row → m2.min_row ≤ rowNum → rowNum ≤ m2.max_row →
    m.max_col < m2.min_col ∨ m2.max_col < m.min_col ∨
      (m.min_col = m2.min_col ∧ m.max_col = m2.max_col)

/- ===================== Theorems ===================== -/

/-- Claim C4: every record committed to the durable output table has
exactly the full fixed schema column set, in the fixed column order
(header-matched fields, name-block fields, numeric data fields, special
field, extended fields, additional field, then period/region/source
metadata), and a field the record does not carry is present with the
absent sentinel `None` rather than omitted. -/
theorem claim_C4 (rec : Record) (col : String) (hmem : col ∈ FINAL_COLUMN_ORDER)
    (hmiss : rec.find? (fun p => p.1 == col) = none) :
    (finalize_record rec).map Prod.fst = FINAL_COLUMN_ORDER ∧
      (col, CellValue.vnone) ∈ finalize_record rec := by
  constructor
  · simp only [finalize_record, List.map_map]
    exact List.map_id _
  · have hv : record_get rec col = CellValue.vnone := by simp [record_get, hmiss]
    exact List.mem_map.mpr ⟨col, hmem, by simp [hv]⟩

/-- Witness for C4 at the empty record and the first schema column. -/
theorem claim_C4_witness :
    ("债券名称" ∈ FINAL_COLUMN_ORDER) ∧
      ((finalize_record []).map Prod.fst = FINAL_COLUMN_ORDER ∧
        ("债券名称", CellValue.vnone) ∈ finalize_record []) :=
  ⟨by decide, claim_C4 [] ("债券名称") (by decide) rfl⟩

/-- The right-to-left scan stops at the highest column (at most `n`)
whose cell has a border and a non-`None` value. -/
theorem scan_special_eq_of_last (s : Sheet) (rowNum : Nat) :
    ∀ (n c : Nat), 1 ≤ c → c ≤ n →
      has_border (s.cell rowNum c) = true → (s.cell rowNum c).value ≠ CellValue.vnone →
      (∀ c2, c < c2 → c2 ≤ n →
        ¬ (has_border (s.cell rowNum c2) = true ∧ (s.cell rowNum c2).value ≠ CellValue.vnone)) →
      scan_special s rowNum n = (s.cell rowNum c).value := by
  intro n
  induction n with
  | zero => intro c h1 h2; omega
  | succ m ih =>
    intro c h1 h2 hb hv hnone
    rcases Nat.lt_or_ge c (m + 1) with hlt | hge
    · have hnot : ¬ (has_border (s.cell rowNum (m + 1)) = true ∧
          (s.cell rowNum (m + 1)).value ≠ CellValue.vnone) :=
        hnone (m + 1) hlt (le_refl _)
      have : scan_special s rowNum (m + 1) = scan_special s rowNum m := by
        simp only [scan_special]
        rw [if_neg hnot]
      rw [this]
      exact ih c h1 (by omega) hb hv (fun c2 hc2 hc2m => hnone c2 hc2 (by omega))
    · have hceq : c = m + 1 := by omega
      subst hceq
      simp only [scan_special]
      rw [if_pos ⟨hb, hv⟩]

/-- If no column of `1..n` has a bordered, non-empty cell, the scan
returns `None`. -/
theorem scan_special_eq_none (s : Sheet) (rowNum : Nat) :
    ∀ n : Nat, (∀ c, 1 ≤ c → c ≤ n →
      ¬ (has_border (s.cell rowNum c) = true ∧ (s.cell rowNum c).value ≠ CellValue.vnone)) →
      scan_special s rowNum n = CellValue.vnone := by
  intro n
  induction n with
  | zero => intro; simp [scan_special]
  | succ m ih =>
    intro hnone
    simp only [scan_special]
    rw [if_neg (hnone (m + 1) (by omega) (le_refl _))]
    exact ih (fun c h1 h2 => hnone c h1 (by omega))

/-- Counterexample to claim C8 as stated: in this row the first cell
encountered by the right-to-left scan that has a border (column 2) holds
`None`, yet the code's special-field value is the `5` found further left —
a bare bordered cell does *not* determine the value. -/
theorem claim_C8_counterexample :
    special_col_value demo_c8_sheet 1 = CellValue.vint 5 ∧
    special_col_value_claimed demo_c8_sheet 1 = CellValue.vnone ∧
    has_border (demo_c8_sheet.cell 1 2) = true ∧
    (demo_c8_sheet.cell 1 2).value = CellValue.vnone := by
  refine ⟨?_, ?_, ?_, ?_⟩ <;> decide

/-- Claim C8 as amended: the special field's value is the value of the
first cell encountered scanning right to left from the sheet's maximum
column that has a border *and* a non-`None` value; bordered cells with a
`None` value are passed over, and if no bordered non-empty cell exists the
field is `None`. -/
theorem claim_C8_amended (s : Sheet) (rowNum : Nat) :
    (∀ c, 1 ≤ c → c ≤ s.maxCol →
      has_border (s.cell rowNum c) = true → (s.cell rowNum c).value ≠ CellValue.vnone →
      (∀ c2, c < c2 → c2 ≤ s.maxCol →
        ¬ (has_border (s.cell rowNum c2) = true ∧ (s.cell rowNum c2).value ≠ CellValue.vnone)) →
      special_col_value s rowNum = (s.cell rowNum c).value) ∧
    ((∀ c, 1 ≤ c → c ≤ s.maxCol →
        ¬ (has_border (s.cell rowNum c) = true ∧ (s.cell rowNum c).value ≠ CellValue.vnone)) →
      special_col_value s rowNum = CellValue.vnone) :=
  ⟨fun c h1 h2 hb hv hnone => scan_special_eq_of_last s rowNum s.maxCol c h1 h2 hb hv hnone,
   fun hnone => scan_special_eq_none s rowNum s.maxCol hnone⟩

/-- Witness for the amended C8 on the counterexample sheet: column 1 is
the rightmost bordered non-empty cell, so its value `5` is selected. -/
theorem claim_C8_amended_witness :
    special_col_value demo_c8_sheet 1 = (demo_c8_sheet.cell 1 1).value :=
  (claim_C8_amended demo_c8_sheet 1).1 1 (by decide) (by decide) (by decide) (by decide)
    (by intro c2 h1 h2; have h2x : c2 ≤ 2 := h2; interval_cases c2; decide)

/-- Every column emitted by the logical scan from position `col` is at
least `col`: the loop counter only moves right. -/
theorem logical_starts_go_lower (maxCol : Nat) (merges : List MergedRange) (rowNum : Nat) :
    ∀ (fuel col x : Nat), x ∈ get_logical_starts_go maxCol merges rowNum fuel col → col ≤ x := by
  intro fuel
  induction fuel with
  | zero => intro col x hx; simp [get_logical_starts_go] at hx
  | succ f ih =>
    intro col x hx
    simp only [get_logical_starts_go] at hx
    by_cases hcol : col ≤ maxCol
    · rw [if_pos hcol] at hx
      rcases hfind : merges.find? (fun m => merge_covers m rowNum col) with _ | m
      · rw [hfind] at hx
        rcases List.mem_cons.mp hx with hx | hx
        · omega
        · have := ih (col + 1) x hx; omega
      · rw [hfind] at hx
        have hcov := List.find?_some hfind
        simp only [merge_covers, Bool.and_eq_true, decide_eq_true_eq] at hcov
        rcases List.mem_cons.mp hx with hx | hx
        · omega
        · have := ih (m.max_col + 1) x hx; omega
    · rw [if_neg hcol] at hx; simp at hx

/-- The logical scan emits a strictly increasing column list. -/
theorem logical_starts_go_pairwise (maxCol : Nat) (merges : List MergedRange) (rowNum : Nat) :
    ∀ (fuel col : Nat), List.Pairwise (· < ·) (get_logical_starts_go maxCol merges rowNum fuel col) := by
  intro fuel
  induction fuel with
  | zero => intro col; simp [get_logical_starts_go]
  | succ f ih =>
    intro col
    simp only [get_logical_starts_go]
    by_cases hcol : col ≤ maxCol
    · rw [if_pos hcol]
      rcases hfind : merges.find? (fun m => merge_covers m rowNum col) with _ | m
      · exact List.pairwise_cons.mpr
          ⟨fun x hx => by have := logical_starts_go_lower maxCol merges rowNum f (col + 1) x hx; omega,
           ih (col + 1)⟩
      · have hcov := List.find?_some hfind
        simp only [merge_covers, Bool.and_eq_true, decide_eq_true_eq] at hcov
        exact List.pairwise_cons.mpr
          ⟨fun x hx => by
             have := logical_starts_go_lower maxCol merges rowNum f (m.max_col + 1) x hx; omega,
           ih (m.max_col + 1)⟩
    · rw [if_neg hcol]; simp

/-- Claim C10: for every sheet and row, the logical-start list is strictly
increasing and (when the sheet has at least one column) starts at column
1; hence two distinct valid logical indices of the same row map to two
distinct absolute columns. -/
theorem claim_C10 (s : Sheet) (rowNum : Nat) :
    List.Pairwise (· < ·) (get_logical_starts_for_row s rowNum) ∧
    (1 ≤ s.maxCol → (get_logical_starts_for_row s rowNum).head? = some 1) ∧
    (∀ i j : Nat, 1 ≤ i → i ≤ (get_logical_starts_for_row s rowNum).length →
      1 ≤ j → j ≤ (get_logical_starts_for_row s rowNum).length → i ≠ j →
      get_absolute_col_from_logical_index_for_row s rowNum i ≠
        get_absolute_col_from_logical_index_for_row s rowNum j) := by
  refine ⟨logical_starts_go_pairwise s.maxCol s.merges rowNum (s.maxCol + 1) 1, ?_, ?_⟩
  · intro hmc
    show (get_logical_starts_go s.maxCol s.merges rowNum (s.maxCol + 1) 1).head? = some 1
    rcases hmc' : s.maxCol with _ | mc
    · omega
    · simp only [get_logical_starts_go, if_pos (by omega : 1 ≤ mc + 1)]
      rcases hfind : s.merges.find? (fun m => merge_covers m rowNum 1) with _ | m <;> simp
  · intro i j h1i h2i h1j h2j hne heq
    set ls := get_logical_starts_for_row s rowNum with hls
    have hpw : List.Pairwise (· < ·) ls :=
      logical_starts_go_pairwise s.maxCol s.merges rowNum (s.maxCol + 1) 1
    have hi' : i - 1 < ls.length := by omega
    have hj' : j - 1 < ls.length := by omega
    rw [get_absolute_col_from_logical_index_for_row, get_absolute_col_from_logical_index_for_row] at heq
    rw [if_pos ⟨h1i, h2i⟩, if_pos ⟨h1j, h2j⟩] at heq
    rw [← hls] at heq
    rw [List.getElem?_eq_getElem hi', List.getElem?_eq_getElem hj'] at heq
    have heq' : ls.get ⟨i - 1, hi'⟩ = ls.get ⟨j - 1, hj'⟩ := by
      simpa using heq
    have hmono := List.pairwise_iff_get.mp hpw
    rcases Nat.lt_trichotomy (i - 1) (j - 1) with hlt | heqn | hgt
    · have := hmono ⟨i - 1, hi'⟩ ⟨j - 1, hj'⟩ hlt
      omega
    · omega
    · have := hmono ⟨j - 1, hj'⟩ ⟨i - 1, hi'⟩ hgt
      omega

/-- Witness for C10 on a two-column sheet without merges: the list is
`[1, 2]`, sorted, starting at 1, and logical indices 1 and 2 map to
different absolute columns. -/
theorem claim_C10_witness :
    List.Pairwise (· < ·) (get_logical_starts_for_row demo_c10_sheet 1) ∧
    (get_logical_starts_for_row demo_c10_sheet 1).head? = some 1 ∧
    get_absolute_col_from_logical_index_for_row demo_c10_sheet 1 1 ≠
      get_absolute_col_from_logical_index_for_row demo_c10_sheet 1 2 :=
  ⟨(claim_C10 demo_c10_sheet 1).1,
   (claim_C10 demo_c10_sheet 1).2.1 (by decide),
   (claim_C10 demo_c10_sheet 1).2.2 1 2 (by decide) (by decide) (by decide) (by decide)
     (by decide)⟩

/-- Once the scan position passes `maxCol` the logical scan emits
nothing, whatever fuel remains. -/
theorem logical_starts_go_stop (maxCol : Nat) (merges : List MergedRange) (rowNum : Nat) :
    ∀ (fuel col : Nat), maxCol < col → get_logical_starts_go maxCol merges rowNum fuel col = [] := by
  intro fuel col hcol
  cases fuel with
  | zero => rfl
  | succ f => simp only [get_logical_starts_go]; rw [if_neg (by omega)]

/-- Unfolding equation of the logical scan when no merged range contains
the current position. -/
theorem logical_starts_go_none (maxCol : Nat) (merges : List MergedRange) (rowNum f col : Nat)
    (hcol : col ≤ maxCol)
    (hfind : merges.find? (fun m => merge_covers m rowNum col) = none) :
    get_logical_starts_go maxCol merges rowNum (f + 1) col =
      col :: get_logical_starts_go maxCol merges rowNum f (col + 1) := by
  simp only [get_logical_starts_go]
  rw [if_pos hcol, hfind]

/-- Unfolding equation of the logical scan when the first matching merged
range containing the current position is `m`. -/
theorem logical_starts_go_some (maxCol : Nat) (merges : List MergedRange) (rowNum f col : Nat)
    (m : MergedRange) (hcol : col ≤ maxCol)
    (hfind : merges.find? (fun m2 => merge_covers m2 rowNum col) = some m) :
    get_logical_starts_go maxCol merges rowNum (f + 1) col =
      col :: get_logical_starts_go maxCol merges rowNum f (m.max_col + 1) := by
  simp only [get_logical_starts_go]
  rw [if_pos hcol, hfind]

/-- Characterization of the logical scan under the merged-range
disjointness invariant: starting at a column that is not strictly inside
any covering merge, the scan emits exactly the columns of
`col..maxCol` that are not strictly inside a covering merge. -/
theorem logical_starts_go_filter (maxCol : Nat) (merges : List MergedRange) (rowNum : Nat)
    (_hwf : ∀ m ∈ merges, m.min_row ≤ rowNum → rowNum ≤ m.max_row → 1 ≤ m.min_col)
    (hdisj : merges_disjoint_at merges rowNum) :
    ∀ (fuel col : Nat), 1 ≤ col → maxCol + 2 - col ≤ fuel + 1 →
      (∀ m ∈ merges, m.min_row ≤ rowNum → rowNum ≤ m.max_row →
        ¬ (m.min_col < col ∧ col ≤ m.max_col)) →
      get_logical_starts_go maxCol merges rowNum fuel col =
        (List.range' col (maxCol + 1 - col)).filter
          (fun c => ! merges.any (fun m => decide (m.min_row ≤ rowNum) &&
            decide (rowNum ≤ m.max_row) && decide (m.min_col < c) && decide (c ≤ m.max_col))) := by
  intro fuel
  induction fuel with
  | zero =>
    intro col h1 hfuel hnotin
    have h0 : maxCol + 1 - col = 0 := by omega
    rw [h0, List.range'_zero]
    rfl
  | succ f ih =>
    intro col h1 hfuel hnotin
    by_cases hcol : col ≤ maxCol
    · have hkeep : (! merges.any (fun m => decide (m.min_row ≤ rowNum) &&
          decide (rowNum ≤ m.max_row) && decide (m.min_col < col) && decide (col ≤ m.max_col))) = true := by
        rw [Bool.not_eq_true', List.any_eq_false]
        intro m hm
        simp only [Bool.and_eq_true, decide_eq_true_eq, not_and]
        rintro ⟨⟨ha, hb⟩, hc⟩ hd
        exact hnotin m hm ha hb ⟨hc, hd⟩
      have hlen : maxCol + 1 - col = (maxCol - col) + 1 := by omega
      rw [hlen, List.range'_succ, List.filter_cons, if_pos hkeep]
      rcases hfind : merges.find? (fun m => merge_covers m rowNum col) with _ | m
      · rw [logical_starts_go_none maxCol merges rowNum f col hcol hfind]
        have hnotin' : ∀ m ∈ merges, m.min_row ≤ rowNum → rowNum ≤ m.max_row →
            ¬ (m.min_col < col + 1 ∧ col + 1 ≤ m.max_col) := by
          intro m hm ha hb
          rintro ⟨hlt, hle⟩
          have hnc := List.find?_eq_none.mp hfind m hm
          simp only [merge_covers, Bool.and_eq_true, decide_eq_true_eq, not_and] at hnc
          have : ¬ (col ≤ m.max_col) := fun hcm => hnc ⟨⟨ha, hb⟩, by omega⟩ hcm
          omega
        have := ih (col + 1) (by omega) (by omega) hnotin'
        rw [this]
        have : maxCol + 1 - (col + 1) = maxCol - col := by omega
        rw [this]
      · rw [logical_starts_go_some maxCol merges rowNum f col m hcol hfind]
        have hmem := List.mem_of_find?_eq_some hfind
        have hcov := List.find?_some hfind
        simp only [merge_covers, Bool.and_eq_true, decide_eq_true_eq] at hcov
        obtain ⟨⟨⟨hra, hrb⟩, hca⟩, hcb⟩ := hcov
        have hstart : m.min_col = col := by
          have := hnotin m hmem hra hrb
          omega
        have hmid : ∀ c, col + 1 ≤ c → c ≤ m.max_col →
            (! merges.any (fun m2 => decide (m2.min_row ≤ rowNum) &&
              decide (rowNum ≤ m2.max_row) && decide (m2.min_col < c) &&
              decide (c ≤ m2.max_col))) = false := by
          intro c hc1 hc2
          simp only [Bool.not_eq_false', List.any_eq_true]
          exact ⟨m, hmem, by simp only [Bool.and_eq_true, decide_eq_true_eq]; omega⟩
        have hnotin2 : ∀ m2 ∈ merges, m2.min_row ≤ rowNum → rowNum ≤ m2.max_row →
            ¬ (m2.min_col < m.max_col + 1 ∧ m.max_col + 1 ≤ m2.max_col) := by
          intro m2 hm2 ha hb
          rintro ⟨hlt, hle⟩
          rcases hdisj m hmem m2 hm2 hra hrb ha hb with hd | hd | ⟨hd1, hd2⟩ <;> omega
        by_cases hT : maxCol ≤ m.max_col
        · rw [logical_starts_go_stop maxCol merges rowNum f (m.max_col + 1) (by omega)]
          have hnil : (List.range' (col + 1) (maxCol - col)).filter
              (fun c => ! merges.any (fun m2 => decide (m2.min_row ≤ rowNum) &&
                decide (rowNum ≤ m2.max_row) && decide (m2.min_col < c) &&
                decide (c ≤ m2.max_col))) = [] := by
            rw [List.filter_eq_nil_iff]
            intro c hc
            rw [List.mem_range'_1] at hc
            rw [hmid c (by omega) (by omega)]
            simp
          rw [hnil]
        · push_neg at hT
          have hsplit : List.range' (col + 1) (maxCol - col) =
              List.range' (col + 1) (m.max_col - col) ++
                List.range' (m.max_col + 1) (maxCol - m.max_col) := by
            have := List.range'_append (col + 1) (m.max_col - col) (maxCol - m.max_col) 1
            simp only [Nat.one_mul] at this
            rw [show col + 1 + (m.max_col - col) = m.max_col + 1 from by omega] at this
            rw [show maxCol - m.max_col + (m.max_col - col) = maxCol - col from by omega] at this
            exact this.symm
          have hnil : (List.range' (col + 1) (m.max_col - col)).filter
              (fun c => ! merges.any (fun m2 => decide (m2.min_row ≤ rowNum) &&
                decide (rowNum ≤ m2.max_row) && decide (m2.min_col < c) &&
                decide (c ≤ m2.max_col))) = [] := by
            rw [List.filter_eq_nil_iff]
            intro c hc
            rw [List.mem_range'_1] at hc
            rw [hmid c (by omega) (by omega)]
            simp
          rw [hsplit, List.filter_append, hnil, List.nil_append]
          have := ih (m.max_col + 1) (by omega) (by omega) hnotin2
          rw [this]
          have : maxCol + 1 - (m.max_col + 1) = maxCol - m.max_col := by omega
          rw [this]
    · rw [logical_starts_go_stop maxCol merges rowNum (f + 1) col (by omega)]
      have h0 : maxCol + 1 - col = 0 := by omega
      rw [h0, List.range'_zero]
      rfl

/-- Claim C6: scanning columns left to right, a column becomes a logical
slot exactly when it is not strictly inside (after the starting column
of) a merge region covering the row — the scan jumps past a covering
merge's last column; in particular, for a row whose covering merges span
columns 2–3 on a sheet at least 4 columns wide, the logical starts begin
`[1, 2, 4]` (column 3 contributes no slot).  The merged ranges covering
the row are assumed to start at column 1 or later and to be pairwise
column-disjoint (or identical in span), as non-overlapping spreadsheet
merges always are. -/
theorem claim_C6 (s : Sheet) (rowNum : Nat)
    (hwf : ∀ m ∈ s.merges, m.min_row ≤ rowNum → rowNum ≤ m.max_row → 1 ≤ m.min_col)
    (hdisj : merges_disjoint_at s.merges rowNum) :
    get_logical_starts_for_row s rowNum =
      (List.range' 1 s.maxCol).filter (fun c => ! strictly_inside_merge s rowNum c) ∧
    (4 ≤ s.maxCol →
      (∃ m ∈ s.merges, m.min_row ≤ rowNum ∧ rowNum ≤ m.max_row) →
      (∀ m ∈ s.merges, m.min_row ≤ rowNum → rowNum ≤ m.max_row →
        m.min_col = 2 ∧ m.max_col = 3) →
      (get_logical_starts_for_row s rowNum).take 3 = [1, 2, 4]) := by
  have hmain : get_logical_starts_for_row s rowNum =
      (List.range' 1 s.maxCol).filter (fun c => ! strictly_inside_merge s rowNum c) := by
    have hnotin1 : ∀ m ∈ s.merges, m.min_row ≤ rowNum → rowNum ≤ m.max_row →
        ¬ (m.min_col < 1 ∧ 1 ≤ m.max_col) := by
      intro m hm ha hb
      have := hwf m hm ha hb
      omega
    have := logical_starts_go_filter s.maxCol s.merges rowNum hwf hdisj (s.maxCol + 1) 1
      (by omega) (by omega) hnotin1
    rw [show s.maxCol + 1 - 1 = s.maxCol from by omega] at this
    exact this
  refine ⟨hmain, ?_⟩
  intro hmc ⟨m0, hm0, hm0a, hm0b⟩ hspan
  have hin : ∀ c : Nat, strictly_inside_merge s rowNum c = true ↔ c = 3 := by
    intro c
    constructor
    · intro hc
      rw [strictly_inside_merge, List.any_eq_true] at hc
      obtain ⟨m, hm, hp⟩ := hc
      simp only [Bool.and_eq_true, decide_eq_true_eq] at hp
      obtain ⟨⟨⟨ha, hb⟩, hlt⟩, hle⟩ := hp
      have := hspan m hm ha hb
      omega
    · intro hc
      subst hc
      rw [strictly_inside_merge, List.any_eq_true]
      refine ⟨m0, hm0, ?_⟩
      have := hspan m0 hm0 hm0a hm0b
      simp only [Bool.and_eq_true, decide_eq_true_eq]
      omega
  have hne : ∀ c, c ≠ 3 → (! strictly_inside_merge s rowNum c) = true := by
    intro c hc
    rw [Bool.not_eq_true']
    cases h : strictly_inside_merge s rowNum c
    · rfl
    · exact absurd ((hin c).mp h) hc
  have h3 : (! strictly_inside_merge s rowNum 3) = false := by
    rw [(hin 3).mpr rfl]
    rfl
  obtain ⟨k, hk⟩ : ∃ k, s.maxCol = 4 + k := ⟨s.maxCol - 4, by omega⟩
  have hr : List.range' 1 (4 + k) = 1 :: 2 :: 3 :: 4 :: List.range' 5 k := by
    rw [show 4 + k = k + 1 + 1 + 1 + 1 from by omega]
    simp only [List.range'_succ]
  have e1 := hne 1 (by omega)
  have e2 := hne 2 (by omega)
  have e4 := hne 4 (by omega)
  rw [hmain, hk, hr]
  simp only [List.filter_cons, e1, e2, e4, h3, if_true, if_false]
  simp

/-- Witness for C6 on a four-column sheet whose single merge spans
columns 2–3 of row 1: the logical starts begin `[1, 2, 4]`. -/
theorem claim_C6_witness :
    (get_logical_starts_for_row demo_c6_sheet 1).take 3 = [1, 2, 4] :=
  (claim_C6 demo_c6_sheet 1 (by decide) (by unfold merges_disjoint_at; decide)).2
    (by decide) (by decide) (by decide)

/-- The matched-sheet loop yields no table exactly when no title-matching
sheet has a border region. -/
theorem first_table_start_none (sheets : List Sheet) :
    ∀ l : List Nat, first_table_start sheets l = none ↔
      ∀ i ∈ l, find_border_range_in_sheet ((sheets[i]?).getD default) = none := by
  intro l
  induction l with
  | nil => simp [first_table_start]
  | cons a rest ih =>
    rcases h : find_border_range_in_sheet ((sheets[a]?).getD default) with _ | r
    · simp only [first_table_start, h]
      constructor
      · intro hrest i hi
        rcases List.mem_cons.mp hi with rfl | hi
        · exact h
        · exact (ih.mp hrest) i hi
      · intro hall
        exact ih.mpr (fun i hi => hall i (List.mem_cons_of_mem a hi))
    · simp only [first_table_start, h]
      constructor
      · intro hc; cases hc
      · intro hall
        have := hall a (List.mem_cons_self a rest)
        rw [h] at this
        cases this

/-- When the matched-sheet loop does return a start, the chosen sheet is
the first title-matching sheet that has a border region: every matched
sheet before it is border-less. -/
theorem first_table_start_some (sheets : List Sheet) :
    ∀ (l : List Nat) (i : Nat) (r : Rect), first_table_start sheets l = some (i, r) →
      ∃ pre post, l = pre ++ i :: post ∧
        (∀ j ∈ pre, find_border_range_in_sheet ((sheets[j]?).getD default) = none) ∧
        find_border_range_in_sheet ((sheets[i]?).getD default) = some r := by
  intro l
  induction l with
  | nil => intro i r h; cases h
  | cons a rest ih =>
    intro i r hst
    rcases h : find_border_range_in_sheet ((sheets[a]?).getD default) with _ | ra
    · rw [first_table_start, h] at hst
      obtain ⟨pre, post, hl, hpre, hi⟩ := ih i r hst
      exact ⟨a :: pre, post, by rw [hl]; rfl,
        fun j hj => by
          rcases List.mem_cons.mp hj with rfl | hj
          · exact h
          · exact hpre j hj, hi⟩
    · rw [first_table_start, h] at hst
      obtain ⟨rfl, rfl⟩ : a = i ∧ ra = r := by
        constructor <;> (cases hst; rfl)
      exact ⟨[], rest, rfl, by simp, h⟩

/-- Counterexample to claim C2 as stated: here the first title-matching
sheet (index 0) has no border region, yet the group is *not* aborted —
the next title-matching sheet (index 1) is consolidated instead. -/
theorem claim_C2_counterexample :
    matched_sheet_indices demo_mp 3 demo_c2_sheets = [0, 1] ∧
    find_border_range_in_sheet ((demo_c2_sheets[0]?).getD default) = none ∧
    consolidate_select demo_mp 3 demo_c2_sheets = some ([(1, demo_c2_rect)], 1) := by
  refine ⟨?_, ?_, ?_⟩ <;> decide

/-- Claim C2 as amended: a title-matching sheet without a border region is
skipped in favour of the next title-matching sheet; consolidation of the
group aborts with `NoTableFound` exactly when *no* title-matching sheet
has a border region, and otherwise the consolidated run starts at the
first title-matching sheet that does have one. -/
theorem claim_C2_amended (mp : String → Bool) (lim : Nat) (sheets : List Sheet) :
    (consolidate_select mp lim sheets = none ↔
      ∀ i ∈ matched_sheet_indices mp lim sheets,
        find_border_range_in_sheet ((sheets[i]?).getD default) = none) ∧
    (∀ i r, first_table_start sheets (matched_sheet_indices mp lim sheets) = some (i, r) →
      (∃ pre post, matched_sheet_indices mp lim sheets = pre ++ i :: post ∧
        (∀ j ∈ pre, find_border_range_in_sheet ((sheets[j]?).getD default) = none) ∧
        find_border_range_in_sheet ((sheets[i]?).getD default) = some r) ∧
      consolidate_select mp lim sheets =
        some ((i, r) :: continuation_walk sheets r (i + 1),
          (((continuation_walk sheets r (i + 1)).getLast?).getD (i, r)).1)) := by
  constructor
  · rw [← first_table_start_none sheets (matched_sheet_indices mp lim sheets)]
    unfold consolidate_select
    cases h : first_table_start sheets (matched_sheet_indices mp lim sheets) with
    | none => simp
    | some p => simp
  · intro i r hfind
    refine ⟨first_table_start_some sheets _ i r hfind, ?_⟩
    unfold consolidate_select
    rw [hfind]

/-- Witness for the amended C2 on the counterexample group: the start is
sheet 1 (the first *bordered* title match), with sheet 0 passed over. -/
theorem claim_C2_amended_witness :
    (∃ pre post, matched_sheet_indices demo_mp 3 demo_c2_sheets = pre ++ 1 :: post ∧
      (∀ j ∈ pre, find_border_range_in_sheet ((demo_c2_sheets[j]?).getD default) = none) ∧
      find_border_range_in_sheet ((demo_c2_sheets[1]?).getD default) = some demo_c2_rect) ∧
    consolidate_select demo_mp 3 demo_c2_sheets =
      some ((1, demo_c2_rect) :: continuation_walk demo_c2_sheets demo_c2_rect 2,
        (((continuation_walk demo_c2_sheets demo_c2_rect 2).getLast?).getD
          (1, demo_c2_rect)).1) :=
  (claim_C2_amended demo_mp 3 demo_c2_sheets).2 1 demo_c2_rect (by decide)

/-- Claim C3: during the continuation walk, the next sheet in original
order is appended exactly when it has a border region whose column count
equals the current region's column count (and the walk then continues
re-based on that region); otherwise the walk stops.  Appended regions are
stacked vertically with no gaps in row order, so the consolidated block
holds exactly the sum of the region heights — in particular two 9-row
regions (such as two sheets bounded `B2:F10`) give 18 rows. -/
theorem claim_C3 (sheets : List Sheet) (cur : Rect) (nextIdx : Nat)
    (h : nextIdx < sheets.length) :
    (∀ nr, find_border_range_in_sheet ((sheets[nextIdx]?).getD default) = some nr →
      (are_tables_similar cur nr = true →
        continuation_walk sheets cur nextIdx =
          (nextIdx, nr) :: continuation_walk sheets nr (nextIdx + 1)) ∧
      (are_tables_similar cur nr = false → continuation_walk sheets cur nextIdx = [])) ∧
    (find_border_range_in_sheet ((sheets[nextIdx]?).getD default) = none →
      continuation_walk sheets cur nextIdx = []) ∧
    (∀ tables : List (Nat × Rect), (consolidated_rows sheets tables).length =
      (tables.map (fun t => rect_height t.2)).sum) := by
  have hfuel : sheets.length - nextIdx = (sheets.length - (nextIdx + 1)) + 1 := by omega
  refine ⟨?_, ?_, ?_⟩
  · intro nr hnr
    constructor
    · intro hsim
      show continuation_walk_go sheets (sheets.length - nextIdx) cur nextIdx = _
      rw [hfuel]
      simp only [continuation_walk_go]
      rw [if_pos h, hnr]
      show (if are_tables_similar cur nr = true then
          (nextIdx, nr) :: continuation_walk_go sheets (sheets.length - (nextIdx + 1)) nr (nextIdx + 1)
        else []) = _
      rw [if_pos hsim]
      rfl
    · intro hsim
      show continuation_walk_go sheets (sheets.length - nextIdx) cur nextIdx = _
      rw [hfuel]
      simp only [continuation_walk_go]
      rw [if_pos h, hnr]
      show (if are_tables_similar cur nr = true then
          (nextIdx, nr) :: continuation_walk_go sheets (sheets.length - (nextIdx + 1)) nr (nextIdx + 1)
        else []) = _
      rw [if_neg (by rw [hsim]; exact Bool.false_ne_true)]
  · intro hnone
    show continuation_walk_go sheets (sheets.length - nextIdx) cur nextIdx = _
    rw [hfuel]
    simp only [continuation_walk_go]
    rw [if_pos h, hnone]
  · intro tables
    induction tables with
    | nil => rfl
    | cons t rest ih =>
      simp only [consolidated_rows, List.length_append, List.map_cons, List.sum_cons, ih]
      congr 1
      simp [region_rows]

/-- Witness for C3: with two pages each bordered on `B2:F10`, the walk
appends the second page to the first, and stacking the two 9-row regions
yields exactly 18 rows. -/
theorem claim_C3_witness :
    (continuation_walk demo_c3_sheets demo_c3_rect 1 =
      (1, demo_c3_rect) :: continuation_walk demo_c3_sheets demo_c3_rect 2) ∧
    (consolidated_rows demo_c3_sheets [(0, demo_c3_rect), (1, demo_c3_rect)]).length =
      ([(0, demo_c3_rect), (1, demo_c3_rect)].map
        (fun t => rect_height t.2)).sum := by
  constructor
  · exact ((claim_C3 demo_c3_sheets demo_c3_rect 1 (by decide)).1 demo_c3_rect
      (by decide)).1 (by decide)
  · exact (claim_C3 demo_c3_sheets demo_c3_rect 1 (by decide)).2.2
      [(0, demo_c3_rect), (1, demo_c3_rect)]

/-- Log entries are never removed: membership in the log survives the
rest of a run. -/
theorem run_log_mono {α : Type} (pg : FileGroup → List α) (initLog : List String) :
    ∀ (groups : List FileGroup) (st : PipelineState α) (x : String),
      x ∈ st.log → x ∈ (groups.foldl (run_group pg initLog) st).log := by
  intro groups
  induction groups with
  | nil => intro st x hx; exact hx
  | cons g gs ih =>
    intro st x hx
    refine ih (run_group pg initLog st g) x ?_
    unfold run_group
    by_cases hg : g.identifier ∈ initLog
    · rw [if_pos hg]; exact hx
    · rw [if_neg hg]
      cases hpg : pg g with
      | nil => exact hx
      | cons a as => exact List.mem_append_left _ hx

/-- In a run started with an empty log, every group whose processing
produces records ends up committed to the log. -/
theorem run_commits {α : Type} (pg : FileGroup → List α) :
    ∀ (groups : List FileGroup) (st : PipelineState α) (g : FileGroup),
      g ∈ groups → pg g ≠ [] →
      g.identifier ∈ (groups.foldl (run_group pg []) st).log := by
  intro groups
  induction groups with
  | nil => intro st g hg; cases hg
  | cons a gs ih =>
    intro st g hg hne
    rcases List.mem_cons.mp hg with rfl | hg
    · refine run_log_mono pg [] gs (run_group pg [] st g) g.identifier ?_
      unfold run_group
      rw [if_neg (by simp)]
      cases hpg : pg g with
      | nil => exact absurd hpg hne
      | cons x xs => simp
    · exact ih (run_group pg [] st a) g hg hne

/-- A fold whose every step is the identity on states is the identity. -/
theorem foldl_id_of_steps {α : Type} (step : PipelineState α → FileGroup → PipelineState α) :
    ∀ (groups : List FileGroup) (st : PipelineState α),
      (∀ g ∈ groups, ∀ s : PipelineState α, step s g = s) →
      groups.foldl step st = st := by
  intro groups
  induction groups with
  | nil => intro st _; rfl
  | cons a gs ih =>
    intro st hid
    rw [List.foldl_cons, hid a (List.mem_cons_self a gs) st]
    exact ih st (fun g hg => hid g (List.mem_cons_of_mem a hg))

/-- Counterexample to claim C5 as stated: a group whose processing yields
no records is not logged by the first run, so the second run does *not*
skip it via the log-membership test — it is re-attempted.  (The claim
asserted that every group discovered in the second run is skipped
because its identifier is already in the log.) -/
theorem claim_C5_counterexample :
    demo_c5_group ∈ [demo_c5_group] ∧
    ¬ demo_c5_group.identifier ∈
      (run_pipeline demo_c5_fail [demo_c5_group]
        { dataRows := [], log := [] }).log := by
  constructor
  · exact List.mem_cons_self _ _
  · decide

/-- Claim C5 as amended: rerunning the pipeline on the same unchanged
input leaves the durable output tables exactly as the first run left
them, and every group that produced records in the first run is in the
log the second run loads (hence skipped); groups that produced nothing
are re-attempted but deterministically produce nothing again. -/
theorem claim_C5_amended {α : Type} (pg : FileGroup → List α) (groups : List FileGroup) :
    run_pipeline pg groups (run_pipeline pg groups { dataRows := [], log := [] }) =
      run_pipeline pg groups { dataRows := [], log := [] } ∧
    ∀ g ∈ groups, pg g ≠ [] →
      g.identifier ∈ (run_pipeline pg groups
        { dataRows := [], log := [] } : PipelineState α).log := by
  have hcommit : ∀ g ∈ groups, pg g ≠ [] →
      g.identifier ∈ (run_pipeline pg groups
        { dataRows := [], log := [] } : PipelineState α).log :=
    fun g hg hne => run_commits pg groups { dataRows := [], log := [] } g hg hne
  refine ⟨?_, hcommit⟩
  conv_lhs => rw [run_pipeline]
  apply foldl_id_of_steps
  intro g hg s
  by_cases hpg : pg g = []
  · unfold run_group
    by_cases hmem : g.identifier ∈
        (run_pipeline pg groups { dataRows := [], log := [] } : PipelineState α).log
    · rw [if_pos hmem]
    · rw [if_neg hmem, hpg]
  · unfold run_group
    rw [if_pos (hcommit g hg hpg)]

/-- Witness for the amended C5: a one-group input whose group commits; the
second run changes nothing and the group's identifier is in the log. -/
theorem claim_C5_amended_witness :
    (run_pipeline demo_c5_ok [demo_c5_group]
        (run_pipeline demo_c5_ok [demo_c5_group] { dataRows := [], log := [] }) =
      run_pipeline demo_c5_ok [demo_c5_group] { dataRows := [], log := [] }) ∧
    demo_c5_group.identifier ∈
      (run_pipeline demo_c5_ok [demo_c5_group]
        { dataRows := [], log := [] } : PipelineState Nat).log :=
  ⟨(claim_C5_amended demo_c5_ok [demo_c5_group]).1,
   (claim_C5_amended demo_c5_ok [demo_c5_group]).2 demo_c5_group
     (List.mem_cons_self _ _) (by decide)⟩

/-- Once the sheet cursor is past the last sheet, the bordered-cell walk
immediately reports exhaustion, leaving the cursor in place. -/
theorem find_next_bordered_at_end (sheets : List Sheet) (vli sIdx r : Nat)
    (h : sheets.length ≤ sIdx) :
    find_next_bordered sheets vli sIdx r = (none, sIdx, r) := by
  rw [find_next_bordered, dif_neg (by omega)]

/-- If the bordered-cell walk reports exhaustion, its final sheet cursor
is past the last sheet. -/
theorem find_next_bordered_none_ge (sheets : List Sheet) (vli : Nat) (sIdx r : Nat) :
    ∀ s2 r2 : Nat, find_next_bordered sheets vli sIdx r = (none, s2, r2) →
      sheets.length ≤ s2 := by
  intro s2 r2 h
  rw [find_next_bordered] at h
  split at h
  · split at h
    · exact find_next_bordered_none_ge sheets vli (sIdx + 1) 1 s2 r2 h
    · split at h
      · exact find_next_bordered_none_ge sheets vli sIdx (r + 1) s2 r2 h
      · split at h
        · simp at h
        · exact find_next_bordered_none_ge sheets vli sIdx (r + 1) s2 r2 h
  · simp only [Prod.mk.injEq] at h
    omega
termination_by (sheets.length - sIdx, ((sheets[sIdx]?).getD default).maxRow + 1 - r)
decreasing_by
  all_goals first
  | exact Prod.Lex.left _ _ (by omega)
  | exact Prod.Lex.right _ (by omega)

/-- After the walk exhausts the sheet sequence, every remaining field of
the ordered field list is recorded as absent, and the loop still
completes. -/
theorem extract_vars_loop_exhausted (sheets : List Sheet) (vli : Nat) :
    ∀ (vars : List String) (sIdx r : Nat),
      (find_next_bordered sheets vli sIdx r).1 = none →
      (extract_vars_loop sheets vli vars sIdx r).1 =
        vars.map (fun v => (v, CellValue.vnone)) := by
  intro vars
  induction vars with
  | nil => intro sIdx r _; rfl
  | cons v vs ih =>
    intro sIdx r h
    rcases hx : find_next_bordered sheets vli sIdx r with ⟨o, s2, r2⟩
    have ho : o = none := by rw [hx] at h; exact h
    subst ho
    have hge : sheets.length ≤ s2 := find_next_bordered_none_ge sheets vli sIdx r s2 r2 hx
    have hnext : find_next_bordered sheets vli s2 r2 = (none, s2, r2) :=
      find_next_bordered_at_end sheets vli s2 r2 hge
    simp only [extract_vars_loop, hx]
    rw [ih s2 r2 (by rw [hnext])]
    rfl

/-- The loop pairs exactly the given field names, in order. -/
theorem extract_vars_loop_names (sheets : List Sheet) (vli : Nat) :
    ∀ (vars : List String) (sIdx r : Nat),
      (extract_vars_loop sheets vli vars sIdx r).1.map Prod.fst = vars := by
  intro vars
  induction vars with
  | nil => intro sIdx r; rfl
  | cons v vs ih =>
    intro sIdx r
    simp only [extract_vars_loop, List.map_cons]
    rw [ih]

/-- Claim C9: extended-field extraction from an anchor always completes
with every field of the fixed ordered list (plus the additional field)
present, and whenever the row-by-row forward walk exhausts the sheet
sequence before finding a bordered value cell, the affected field — and
every later field — is recorded as absent (`None`); exhaustion is never
an error. -/
theorem claim_C9 (sheets : List Sheet) (a : AnchorLoc) :
    ((extract_vars_from_anchor (some a) sheets).map Prod.fst =
      EXTENDED_VAR_NAMES ++ [ADDITIONAL_VAR_NAME]) ∧
    (∀ (vars : List String) (sIdx r : Nat),
      (find_next_bordered sheets a.vli sIdx r).1 = none →
      (extract_vars_loop sheets a.vli vars sIdx r).1 =
        vars.map (fun v => (v, CellValue.vnone))) := by
  constructor
  · have hdef : extract_vars_from_anchor (some a) sheets =
        (extract_vars_loop sheets a.vli EXTENDED_VAR_NAMES a.sheetIdx (a.row + 1)).1 ++
          [(ADDITIONAL_VAR_NAME, (find_additional_go sheets 10
            (extract_vars_loop sheets a.vli EXTENDED_VAR_NAMES a.sheetIdx (a.row + 1)).2.1
            (extract_vars_loop sheets a.vli EXTENDED_VAR_NAMES a.sheetIdx
              (a.row + 1)).2.2).getD CellValue.vnone)] := rfl
    rw [hdef, List.map_append, extract_vars_loop_names]
    rfl
  · exact extract_vars_loop_exhausted sheets a.vli

/-- Witness for C9 on an empty sheet sequence (exhaustion from the
start): all fields come back, all absent. -/
theorem claim_C9_witness :
    ((extract_vars_from_anchor (some ⟨0, 0, 2⟩) []).map Prod.fst =
      EXTENDED_VAR_NAMES ++ [ADDITIONAL_VAR_NAME]) ∧
    (extract_vars_loop [] 2 EXTENDED_VAR_NAMES 0 1).1 =
      EXTENDED_VAR_NAMES.map (fun v => (v, CellValue.vnone)) :=
  ⟨(claim_C9 [] ⟨0, 0, 2⟩).1,
   (claim_C9 [] ⟨0, 0, 2⟩).2 EXTENDED_VAR_NAMES 0 1
     (by rw [find_next_bordered_at_end [] 2 0 1 (by simp)])⟩

/-- `getLast?` of a cons with a non-empty tail is the tail's. -/
theorem getLast_cons_of_ne_nil {α : Type} (a : α) (l : List α) (h : l ≠ []) :
    (a :: l).getLast? = l.getLast? := by
  cases l with
  | nil => exact absurd rfl h
  | cons b t => exact List.getLast?_cons_cons

/-- Per-cell description of one downward fill pass: a non-blank cell is
kept; a blank cell receives the last non-blank value above it in the
column, falling back to the incoming `lv` and finally to its own (blank)
value. -/
theorem ffill_column_getElem :
    ∀ (col : List CellValue) (lv : Option CellValue) (r : Nat), r < col.length →
      (ffill_column lv col)[r]? = some (
        if non_blank ((col[r]?).getD CellValue.vnone) = true
        then (col[r]?).getD CellValue.vnone
        else ((((col.take r).filter non_blank).getLast?).or lv).getD
          ((col[r]?).getD CellValue.vnone)) := by
  intro col
  induction col with
  | nil => intro lv r h; simp at h
  | cons v rest ih =>
    intro lv r h
    cases r with
    | zero =>
      rcases hnb : non_blank v with _ | _
      · cases lv with
        | some lv0 =>
          simp only [ffill_column]
          rw [if_neg (by rw [hnb]; exact Bool.false_ne_true)]
          simp [hnb]
        | none =>
          simp only [ffill_column]
          rw [if_neg (by rw [hnb]; exact Bool.false_ne_true)]
          simp [hnb]
      · simp only [ffill_column]
        rw [if_pos hnb]
        simp [hnb]
    | succ r2 =>
      have h2 : r2 < rest.length := by simpa using h
      have htake : (v :: rest).take (r2 + 1) = v :: rest.take r2 := List.take_succ_cons
      rcases hnb : non_blank v with _ | _
      · cases lv with
        | some lv0 =>
          have htail : (ffill_column (some lv0) (v :: rest))[r2 + 1]? =
              (ffill_column (some lv0) rest)[r2]? := by
            simp only [ffill_column]
            rw [if_neg (by rw [hnb]; exact Bool.false_ne_true)]
            exact List.getElem?_cons_succ
          rw [htail, ih (some lv0) r2 h2, htake, List.getElem?_cons_succ, List.filter_cons]
          simp [hnb]
        | none =>
          have htail : (ffill_column none (v :: rest))[r2 + 1]? =
              (ffill_column none rest)[r2]? := by
            simp only [ffill_column]
            rw [if_neg (by rw [hnb]; exact Bool.false_ne_true)]
            exact List.getElem?_cons_succ
          rw [htail, ih none r2 h2, htake, List.getElem?_cons_succ, List.filter_cons]
          simp [hnb]
      · have htail : (ffill_column lv (v :: rest))[r2 + 1]? =
            (ffill_column (some v) rest)[r2]? := by
          simp only [ffill_column]
          rw [if_pos hnb]
          exact List.getElem?_cons_succ
        rw [htail, ih (some v) r2 h2]
        rw [htake, List.getElem?_cons_succ]
        rw [List.filter_cons, if_pos hnb]
        rcases hF : (rest.take r2).filter non_blank with _ | ⟨f, fs⟩
        · simp
        · rw [getLast_cons_of_ne_nil v (f :: fs) (by simp)]
          rcases hL : (f :: fs).getLast? with _ | x
          · rw [List.getLast?_eq_none_iff] at hL
            cases hL
          · rfl

/-- Claim C7: after `manual_ffill`, a previously non-blank cell is
unchanged, and a previously blank cell equals the nearest non-blank cell
above it in the same (padded) column — or keeps its blank value when no
non-blank cell exists above it. -/
theorem claim_C7 (data : List (List CellValue)) (r c : Nat)
    (hr : r < data.length) (hc : c < grid_num_cols data) :
    ((((manual_ffill data)[r]?).getD [])[c]?).getD CellValue.vnone =
      (if non_blank (((column_of (data.map (pad_row (grid_num_cols data))) c)[r]?).getD
          CellValue.vnone) = true
        then ((column_of (data.map (pad_row (grid_num_cols data))) c)[r]?).getD CellValue.vnone
        else ((((column_of (data.map (pad_row (grid_num_cols data))) c).take r).filter
            non_blank).getLast?).getD
          (((column_of (data.map (pad_row (grid_num_cols data))) c)[r]?).getD
            CellValue.vnone)) := by
  cases data with
  | nil => simp at hr
  | cons d ds =>
    have hdef : manual_ffill (d :: ds) =
        (List.range ((d :: ds).map (pad_row (grid_num_cols (d :: ds)))).length).map (fun r =>
          (List.range (grid_num_cols (d :: ds))).map (fun c =>
            ((ffill_column none
              (column_of ((d :: ds).map (pad_row (grid_num_cols (d :: ds)))) c))[r]?).getD
              CellValue.vnone)) := rfl
    have hplen : ((d :: ds).map (pad_row (grid_num_cols (d :: ds)))).length =
        (d :: ds).length := List.length_map _ _
    have hrow : (manual_ffill (d :: ds))[r]? =
        some ((List.range (grid_num_cols (d :: ds))).map (fun c =>
          ((ffill_column none
            (column_of ((d :: ds).map (pad_row (grid_num_cols (d :: ds)))) c))[r]?).getD
            CellValue.vnone)) := by
      rw [hdef, List.getElem?_map, List.getElem?_range (by rw [hplen]; exact hr)]
      rfl
    rw [hrow]
    have hcell : (((List.range (grid_num_cols (d :: ds))).map (fun c =>
        ((ffill_column none
          (column_of ((d :: ds).map (pad_row (grid_num_cols (d :: ds)))) c))[r]?).getD
          CellValue.vnone))[c]?).getD CellValue.vnone =
        ((ffill_column none
          (column_of ((d :: ds).map (pad_row (grid_num_cols (d :: ds)))) c))[r]?).getD
          CellValue.vnone := by
      rw [List.getElem?_map, List.getElem?_range hc]
      rfl
    show (((List.range (grid_num_cols (d :: ds))).map _)[c]?).getD CellValue.vnone = _
    rw [hcell]
    have hclen : r < (column_of ((d :: ds).map (pad_row (grid_num_cols (d :: ds)))) c).length := by
      rw [column_of, List.length_map, hplen]
      exact hr
    rw [ffill_column_getElem _ none r hclen]
    rw [Option.or_none]
    rfl

/-- Witness for C7 on a text cell above a blank cell: the blank cell of
row 2 receives the text value from row 1. -/
theorem claim_C7_witness :
    (1 < demo_c7_grid.length) ∧
    ((((manual_ffill demo_c7_grid)[1]?).getD [])[0]?).getD CellValue.vnone =
      (if non_blank ((demo_c7_col[1]?).getD CellValue.vnone) = true
        then (demo_c7_col[1]?).getD CellValue.vnone
        else (((demo_c7_col.take 1).filter non_blank).getLast?).getD
          ((demo_c7_col[1]?).getD CellValue.vnone)) :=
  ⟨by decide, claim_C7 demo_c7_grid 1 0 (by decide) (by decide)⟩

/-- Occurrence numbering outputs one entry per base record. -/
theorem assign_occ_length :
    ∀ (base : List Record) (counts : String → Nat),
      (assign_occ counts base).length = base.length := by
  intro base
  induction base with
  | nil => intro counts; rfl
  | cons r rest ih =>
    intro counts
    simp only [assign_occ]
    by_cases hcn : clean_for_matching (record_get r ("项目名称")) = ""
    · rw [if_pos hcn]
      simp [ih]
    · rw [if_neg hcn]
      simp [ih]

/-- The `i`-th entry of the occurrence numbering: the record itself,
paired with `none` when its normalized name is empty and otherwise with
the running count for that name — the prior count plus the number of
same-named records among the first `i + 1` rows. -/
theorem assign_occ_getElem :
    ∀ (base : List Record) (counts : String → Nat) (i : Nat), i < base.length →
      (assign_occ counts base)[i]? =
        some ((base[i]?).getD [],
          if clean_for_matching (record_get ((base[i]?).getD []) ("项目名称")) = ""
          then none
          else some (counts (clean_for_matching (record_get ((base[i]?).getD []) ("项目名称"))) +
            ((base.take (i + 1)).filter (fun x =>
              clean_for_matching (record_get x ("项目名称")) ==
                clean_for_matching (record_get ((base[i]?).getD []) ("项目名称")))).length)) := by
  intro base
  induction base with
  | nil => intro counts i h; simp at h
  | cons r rest ih =>
    intro counts i h
    cases i with
    | zero =>
      simp only [assign_occ]
      by_cases hcn : clean_for_matching (record_get r ("项目名称")) = ""
      · rw [if_pos hcn]
        simp [hcn]
      · rw [if_neg hcn]
        simp [hcn, List.take_succ_cons, List.filter_cons]
    | succ j =>
      have hj : j < rest.length := by simpa using h
      simp only [assign_occ]
      by_cases hcn : clean_for_matching (record_get r ("项目名称")) = ""
      · rw [if_pos hcn]
        rw [List.getElem?_cons_succ, ih counts j hj]
        simp only [List.getElem?_cons_succ, List.take_succ_cons, List.filter_cons]
        by_cases hT : clean_for_matching (record_get ((rest[j]?).getD []) ("项目名称")) = ""
        · simp [hT]
        · have hpred : (clean_for_matching (record_get r ("项目名称")) ==
              clean_for_matching (record_get ((rest[j]?).getD []) ("项目名称"))) = false := by
            rw [hcn]
            exact beq_eq_false_iff_ne.mpr (fun hx => hT hx.symm)
          simp [hT, hpred]
      · rw [if_neg hcn]
        rw [List.getElem?_cons_succ,
          ih (fun s => if s = clean_for_matching (record_get r ("项目名称"))
            then counts (clean_for_matching (record_get r ("项目名称"))) + 1 else counts s) j hj]
        simp only [List.getElem?_cons_succ, List.take_succ_cons, List.filter_cons]
        by_cases hT : clean_for_matching (record_get ((rest[j]?).getD []) ("项目名称")) = ""
        · simp [hT]
        · by_cases hEq : clean_for_matching (record_get ((rest[j]?).getD []) ("项目名称")) =
              clean_for_matching (record_get r ("项目名称"))
          · have hpred : (clean_for_matching (record_get r ("项目名称")) ==
                clean_for_matching (record_get ((rest[j]?).getD []) ("项目名称"))) = true := by
              rw [hEq]
              exact beq_self_eq_true _
            rw [if_neg hT, if_pos hpred]
            simp only [Option.some.injEq, Prod.mk.injEq, List.length_cons, true_and]
            simp [hEq]
            exact ⟨hcn, by omega⟩
          · have hpred : (clean_for_matching (record_get r ("项目名称")) ==
                clean_for_matching (record_get ((rest[j]?).getD []) ("项目名称"))) = false :=
              beq_eq_false_iff_ne.mpr (fun hx => hEq hx.symm)
            simp [hT, hEq, hpred]

/-- Claim C1: base records and anchors pair by occurrence index.  Reading
the base records in consolidated-table row order, let `cn` be the `i`-th
record's script-normalized project name and `k` the number of records
among the first `i + 1` rows bearing `cn`; when `cn` is non-empty and the
anchor map (anchors for `cn` in scan order) has at least `k` locations,
the record is enriched from the `k`-th anchor; otherwise — empty name or
occurrence index beyond the anchors — every extended field and the
additional field is attached as the absent marker, and no error arises.
Anchors past the number of same-named base records are never selected,
since `k` never exceeds that number. -/
theorem claim_C1 (sheets : List Sheet) (lastIdx : Nat) (meta : List (String × CellValue))
    (base : List Record) (i : Nat) (hi : i < base.length) :
    (enrich_records sheets lastIdx meta base)[i]? =
      some (
        let r := (base[i]?).getD []
        let cn := clean_for_matching (record_get r ("项目名称"))
        let locs := build_anchor_map sheets (lastIdx + 1) cn
        let k := ((base.take (i + 1)).filter (fun x =>
          clean_for_matching (record_get x ("项目名称")) == cn)).length
        if cn ≠ "" ∧ k ≤ locs.length
        then dict_update (dict_update r (extract_vars_from_anchor locs[k - 1]? sheets)) meta
        else dict_update (dict_update r absent_extended_vars) meta) := by
  show ((assign_occ (fun _ => 0) base).map
    (enrich_one (build_anchor_map sheets (lastIdx + 1)) sheets meta))[i]? = _
  rw [List.getElem?_map, assign_occ_getElem base (fun _ => 0) i hi]
  simp only [Option.map_some']
  congr 1
  simp only [enrich_one]
  by_cases hcn : clean_for_matching (record_get ((base[i]?).getD []) ("项目名称")) = ""
  · simp [hcn]
  · rw [if_neg hcn]
    simp only [Nat.zero_add]
    have hmemtake : ((base.take (i + 1))[i]?) = base[i]? := by
      rw [List.getElem?_take]
      rw [if_pos (by omega)]
    have hr0 : (base[i]?).getD [] ∈ base.take (i + 1) := by
      refine List.getElem?_mem (n := i) ?_
      rw [hmemtake, List.getElem?_eq_getElem hi]
      rfl
    have hfil : (base[i]?).getD [] ∈ (base.take (i + 1)).filter (fun x =>
        clean_for_matching (record_get x ("项目名称")) ==
          clean_for_matching (record_get ((base[i]?).getD []) ("项目名称"))) :=
      List.mem_filter.mpr ⟨hr0, by simp⟩
    have hk1 : 1 ≤ ((base.take (i + 1)).filter (fun x =>
        clean_for_matching (record_get x ("项目名称")) ==
          clean_for_matching (record_get ((base[i]?).getD []) ("项目名称")))).length := by
      have := List.length_pos.mpr (List.ne_nil_of_mem hfil)
      omega
    by_cases hk2 : ((base.take (i + 1)).filter (fun x =>
        clean_for_matching (record_get x ("项目名称")) ==
          clean_for_matching (record_get ((base[i]?).getD []) ("项目名称")))).length ≤
        (build_anchor_map sheets (lastIdx + 1)
          (clean_for_matching (record_get ((base[i]?).getD []) ("项目名称")))).length
    · show dict_update (dict_update ((base[i]?).getD [])
          (if 1 ≤ ((base.take (i + 1)).filter (fun x =>
              clean_for_matching (record_get x ("项目名称")) ==
                clean_for_matching (record_get ((base[i]?).getD []) ("项目名称")))).length ∧
            ((base.take (i + 1)).filter (fun x =>
              clean_for_matching (record_get x ("项目名称")) ==
                clean_for_matching (record_get ((base[i]?).getD []) ("项目名称")))).length ≤
              (build_anchor_map sheets (lastIdx + 1)
                (clean_for_matching (record_get ((base[i]?).getD []) ("项目名称")))).length
          then extract_vars_from_anchor
            (build_anchor_map sheets (lastIdx + 1)
              (clean_for_matching (record_get ((base[i]?).getD []) ("项目名称"))))[
              ((base.take (i + 1)).filter (fun x =>
                clean_for_matching (record_get x ("项目名称")) ==
                  clean_for_matching (record_get ((base[i]?).getD []) ("项目名称")))).length - 1]?
            sheets
          else absent_extended_vars)) meta = _
      rw [if_pos ⟨hk1, hk2⟩, if_pos ⟨hcn, hk2⟩]
    · show dict_update (dict_update ((base[i]?).getD [])
          (if 1 ≤ ((base.take (i + 1)).filter (fun x =>
              clean_for_matching (record_get x ("项目名称")) ==
                clean_for_matching (record_get ((base[i]?).getD []) ("项目名称")))).length ∧
            ((base.take (i + 1)).filter (fun x =>
              clean_for_matching (record_get x ("项目名称")) ==
                clean_for_matching (record_get ((base[i]?).getD []) ("项目名称")))).length ≤
              (build_anchor_map sheets (lastIdx + 1)
                (clean_for_matching (record_get ((base[i]?).getD []) ("项目名称")))).length
          then extract_vars_from_anchor
            (build_anchor_map sheets (lastIdx + 1)
              (clean_for_matching (record_get ((base[i]?).getD []) ("项目名称"))))[
              ((base.take (i + 1)).filter (fun x =>
                clean_for_matching (record_get x ("项目名称")) ==
                  clean_for_matching (record_get ((base[i]?).getD []) ("项目名称")))).length - 1]?
            sheets
          else absent_extended_vars)) meta = _
      rw [if_neg (fun hc => hk2 hc.2), if_neg (fun hc => hk2 hc.2)]

/-- Witness for C1: one base record named `甲`, no sheets after the table,
so its anchor list is empty and the record's occurrence index 1 exceeds
it — the record receives the all-absent extended fields. -/
theorem claim_C1_witness :
    (0 < demo_c1_base.length) ∧
    (enrich_records [] 0 [] demo_c1_base)[0]? =
      some (
        let r := (demo_c1_base[0]?).getD []
        let cn := clean_for_matching (record_get r ("项目名称"))
        let locs := build_anchor_map [] (0 + 1) cn
        let k := ((demo_c1_base.take (0 + 1)).filter (fun x =>
          clean_for_matching (record_get x ("项目名称")) == cn)).length
        if cn ≠ "" ∧ k ≤ locs.length
        then dict_update (dict_update r (extract_vars_from_anchor locs[k - 1]? [])) []
        else dict_update (dict_update r absent_extended_vars) []) :=
  ⟨by decide, claim_C1 [] 0 [] demo_c1_base 0 (by decide)⟩

end DebtPipeline
